import Mathlib

/-!
Verification of the casino catalog program (src/main.cpp): a composite tree of
revenue-generating games organized into nested groups, with an indentation-based
line-oriented text codec (save / parse / loadFromFile / saveToFile).

Modelling conventions:
* a C++ std::string is a `List Char`; a file's content is a `List Char` stream
  and `splitLines` models the `std::getline` loop of `loadFromFile`;
* the C++ `double` revenue is idealized as `ℚ`; `std::stod` is idealized as the
  exact decimal parser `stod?` (no binary rounding; exponents, hex, inf/nan and
  leading-whitespace skipping are not modelled, as no claim exercises them) and
  the stream output format for doubles is idealized as the exact decimal
  printer `dtos` (the spec's "one consistent, round-trippable format");
* `std::stod` throwing on a non-numeric token is modelled by the `Except Unit`
  layer of the parser (an `Except.error` aborts the whole load, exactly like
  the uncaught C++ exception);
* the parser's shared cursor `index` into the vector of lines is represented
  by the unconsumed suffix of the line list: a call that the C++ code makes at
  cursor `i` is made here on `lines.drop i`, and "the cursor advances past the
  line" becomes "the returned suffix is the tail".
-/

namespace Casino

/-- A single line of the text format (a C++ `std::string`). -/
abbrev Line := List Char

/-- The component tree of `main.cpp`: `Game` leaves (name, revenue) and `Group`
nodes (name, ordered children).  The C++ virtual hierarchy
`Component / Game / Group` becomes a sum type. -/
inductive Component where
  | game (name : List Char) (revenue : ℚ)
  | group (name : List Char) (children : List Component)

/-- `Component::isGroup` (src/main.cpp lines 38 and 82). -/
def isGroup : Component → Bool
  | .game _ _ => false
  | .group _ _ => true

mutual

/-- `Game::getRevenue` (line 31) and `Group::getRevenue` (lines 66-72):
a leaf returns its stored revenue, a group accumulates
`total += child->getRevenue()` over its children starting from `0.0`. -/
def getRevenue : Component → ℚ
  | .game _ r => r
  | .group _ cs => sumRevAux cs 0

/-- The accumulation loop of `Group::getRevenue` (lines 67-71). -/
def sumRevAux : List Component → ℚ → ℚ
  | [], t => t
  | c :: cs, t => sumRevAux cs (t + getRevenue c)

end

/-- `Group::add` (lines 52-54): appends the new child at the end of the
children vector.  On a leaf (where C++ has no such member) it is the identity. -/
def add : Component → Component → Component
  | .group n cs, c => .group n (cs ++ [c])
  | .game n r, _ => .game n r

/-- `Group::getChildren` (lines 85-91): the direct children, in order. -/
def getChildren : Component → List Component
  | .game _ _ => []
  | .group _ cs => cs

/-- `Group::getAllGames` (lines 93-104), expressed on the children list the
loop iterates over: a leaf child is pushed, a group child contributes its own
`getAllGames` (the recursive call on the subgroup's children). -/
def getAllGames : List Component → List Component
  | [] => []
  | .game n r :: cs => .game n r :: getAllGames cs
  | .group _ gcs :: cs => getAllGames gcs ++ getAllGames cs

mutual

/-- Modelled from the spec: "`getAllGames()` -> sequence of non-owning
references to every Leaf in the subtree, depth-first, left-to-right"
(spec section 4.1).  Reference definition used to state claim C8. -/
def dfsLeaves : Component → List Component
  | .game n r => [.game n r]
  | .group _ cs => dfsLeavesList cs

/-- Depth-first, left-to-right concatenation of the leaves of a forest. -/
def dfsLeavesList : List Component → List Component
  | [] => []
  | c :: cs => dfsLeaves c ++ dfsLeavesList cs

end

/-! ### Indentation helpers (`getDepth`, `trimSpaces`) -/

/-- `getDepth` (lines 108-114): counts the leading *pairs* of spaces; an odd
trailing space that does not complete a pair is not counted. -/
def getDepth : List Char → Nat
  | c1 :: c2 :: rest => if c1 = ' ' ∧ c2 = ' ' then getDepth rest + 1 else 0
  | _ => 0

/-- `trimSpaces` (lines 116-122): strips the leading pairs of spaces. -/
def trimSpaces : List Char → List Char
  | c1 :: c2 :: rest => if c1 = ' ' ∧ c2 = ' ' then trimSpaces rest else c1 :: c2 :: rest
  | l => l

/-- The reserved group record prefix, "GROUP ". -/
def gGROUP : List Char := ['G', 'R', 'O', 'U', 'P', ' ']

/-- The reserved leaf record prefix, "GAME ". -/
def gGAME : List Char := ['G', 'A', 'M', 'E', ' ']

/-! ### Whitespace tokenization (the `istringstream >> part` loop, line 162) -/

/-- Tokenizer worker: `cur` is the current (reversed) partial token. -/
def tokensAux : List Char → List Char → List (List Char)
  | [], cur => if cur = [] then [] else [cur.reverse]
  | c :: rest, cur =>
    if c.isWhitespace then
      if cur = [] then tokensAux rest [] else cur.reverse :: tokensAux rest []
    else tokensAux rest (c :: cur)

/-- Whitespace tokenization: the maximal whitespace-free words of a string,
as produced by the `while (iss >> part)` loop. -/
def tokens (l : List Char) : List (List Char) := tokensAux l []

/-- Joining tokens with single spaces: `gameName = parts[0]` followed by
`gameName += " " + parts[i]` (lines 166-169). -/
def joinSp : List (List Char) → List Char
  | [] => []
  | [t] => t
  | t :: ts => t ++ ' ' :: joinSp ts

/-! ### Decimal numerals: the idealized `double` codec -/

/-- The character of a single decimal digit. -/
def digitChar (d : Nat) : Char := Char.ofNat (48 + d)

/-- The value of a decimal digit character. -/
def charDigit (c : Char) : Nat := c.toNat - 48

/-- Little-endian decimal digits of `n` (empty for `0`); the first argument is
fuel, always called with `fuel ≥ n`. -/
def natDigitsRevAux : Nat → Nat → List Nat
  | 0, _ => []
  | fuel + 1, n => if n = 0 then [] else n % 10 :: natDigitsRevAux fuel (n / 10)

/-- Little-endian decimal digits of `n` (empty for `0`). -/
def natDigitsRev (n : Nat) : List Nat := natDigitsRevAux n n

/-- Value of a little-endian digit list. -/
def ofDigitsRev : List Nat → Nat
  | [] => 0
  | d :: ds => d + 10 * ofDigitsRev ds

/-- Value of a big-endian digit list (how a left-to-right parse accumulates). -/
def parseDigitsB (ds : List Nat) : Nat := ds.foldl (fun a d => 10 * a + d) 0

/-- Decimal numeral of `n`. -/
def natStr (n : Nat) : List Char :=
  if n = 0 then ['0'] else ((natDigitsRev n).reverse.map digitChar)

/-- Big-endian digit values of the numeral of `n` (`[0]` for zero). -/
def natStrVals (n : Nat) : List Nat :=
  if n = 0 then [0] else (natDigitsRev n).reverse

/-- Big-endian digit values of the `k`-digit zero-padded numeral of `r`. -/
def padVals (k r : Nat) : List Nat :=
  List.replicate (k - (natDigitsRev r).length) 0 ++ (natDigitsRev r).reverse

/-- Exponent of `p` in `n` (0 for `n = 0` or `p < 2`); first argument of the
worker is fuel, always called with `fuel ≥ n`. -/
def pExpAux (p : Nat) : Nat → Nat → Nat
  | 0, _ => 0
  | fuel + 1, n => if 2 ≤ p ∧ n ≠ 0 ∧ n % p = 0 then pExpAux p fuel (n / p) + 1 else 0

/-- Exponent of `p` in `n`. -/
def pExp (p n : Nat) : Nat := pExpAux p n n

/-- The number of decimal fraction digits needed for `q`: enough tens to clear
the powers of 2 and 5 of the (reduced) denominator. -/
def decExp (q : ℚ) : Nat := Nat.max (pExp 2 q.den) (pExp 5 q.den)

/-- `q` has a finite decimal expansion (its reduced denominator divides
`10 ^ decExp q`, i.e. it only has prime factors 2 and 5).  Every binary
floating-point value — every revenue the C++ program can hold — satisfies
this. -/
def decimalDenB (q : ℚ) : Bool := 10 ^ decExp q % q.den = 0

/-- Modelled from the spec: the serializer's textual format for revenues.
The C++ code uses the platform iostream formatting of `double`; the spec asks
for "one consistent format, e.g. shortest round-trippable representation".
`dtos` prints the exact finite decimal expansion (sign, integer part, and,
when the denominator is not 1, a '.' followed by the zero-padded fraction
digits); it is exact on every `q` with `decimalDenB q`. -/
def dtos (q : ℚ) : List Char :=
  let k := decExp q
  let m := q.num.natAbs * (10 ^ k / q.den)
  (if q.num < 0 then ['-'] else []) ++
    natStr (m / 10 ^ k) ++
    (if k = 0 then [] else '.' :: (padVals k (m % 10 ^ k)).map digitChar)

/-- Longest digit prefix of a character list, as digit values, with the rest. -/
def takeDigits : List Char → List Nat × List Char
  | [] => ([], [])
  | c :: rest =>
    if c.isDigit then
      let p := takeDigits rest
      (charDigit c :: p.1, p.2)
    else ([], c :: rest)

/-- Idealized `std::stod` (line 165): optional sign, integer digits, optional
'.' and fraction digits, ignoring any remainder; `none` when no digit at all
could be read (where the C++ function throws). -/
def stod? (l : List Char) : Option ℚ :=
  let neg := l.headD ' ' == '-'
  let l1 := if l.headD ' ' == '-' || l.headD ' ' == '+' then l.tail else l
  let p1 := takeDigits l1
  let p2 := if p1.2.headD ' ' == '.' then takeDigits p1.2.tail else ([], p1.2)
  if p1.1.isEmpty && p2.1.isEmpty then none
  else
    let mag : ℚ := (parseDigitsB p1.1 : ℚ) + (parseDigitsB p2.1 : ℚ) / 10 ^ p2.1.length
    some (if neg then -mag else mag)

/-! ### Serialization (`Game::save` lines 33-36, `Group::save` lines 74-80) -/

/-- The `2 * depth` spaces of indentation written by the save loops. -/
def indent : Nat → List Char
  | 0 => []
  | d + 1 => ' ' :: ' ' :: indent d

mutual

/-- `Component::save` into an output stream: a game writes
`indent, "GAME ", name, ' ', revenue, '\n'`; a group writes
`indent, "GROUP ", name, '\n'` followed by its children at `depth + 1`. -/
def save : Component → Nat → List Char
  | .game n r, d => indent d ++ gGAME ++ n ++ ' ' :: (dtos r ++ ['\n'])
  | .group n cs, d => indent d ++ gGROUP ++ n ++ '\n' :: saveChildren cs (d + 1)

/-- The `for (auto& child : children) child->save(out, depth + 1)` loop. -/
def saveChildren : List Component → Nat → List Char
  | [], _ => []
  | c :: cs, d => save c d ++ saveChildren cs d

end

/-! ### Splitting a stream into lines (the `std::getline` loop, lines 183-187) -/

/-- Line-splitting worker; the first argument is fuel, always called with
`fuel ≥ s.length`. -/
def splitLinesAux : Nat → List Char → List (List Char)
  | 0, _ => []
  | _, [] => []
  | fuel + 1, c :: s =>
    ((c :: s).takeWhile (fun x => x ≠ '\n')) ::
      splitLinesAux fuel (((c :: s).dropWhile (fun x => x ≠ '\n')).tail)

/-- `std::getline` applied repeatedly: splits at each '\n'; a final segment
without a trailing newline still yields a line; the empty stream yields no
lines. -/
def splitLines (s : List Char) : List (List Char) := splitLinesAux s.length s

/-! ### The recursive-descent parser (`parse`, lines 124-177) -/

/-- The leaf-record step (lines 158-172): with at least two whitespace tokens,
the last token is the revenue (`std::stod`, which throws — `Except.error` —
on a non-numeric token) and the preceding tokens joined with single spaces are
the name; with fewer than two tokens the record yields no node. -/
def gameStep (parts : List (List Char)) : Except Unit (Option Component) :=
  if 2 ≤ parts.length then
    match stod? (parts.getLastD []) with
    | some rev => .ok (some (.game (joinSp parts.dropLast) rev))
    | none => .error ()
  else .ok none

mutual

/-- `parse(lines, index)` in suffix form: consumes lines from the front and
returns the parsed node (`none` where C++ returns `nullptr`) together with the
unconsumed suffix, bundled with the fact that a call on a nonempty list
consumes at least one line (the C++ loop's progress guarantee).  On an
`Except.error` (C++: the `std::stod` exception unwinds the stack and the
cursor is never observed again) the suffix is unspecified; we return the one
reached. -/
def parseA : (ls : List Line) →
    Except Unit (Option Component) ×
      {r : List Line // r.length ≤ ls.length ∧ (ls ≠ [] → r.length < ls.length)}
  | [] => (.ok none, ⟨[], by simp⟩)
  | l :: rest =>
    if l = [] then
      -- blank line: `index++; return parse(lines, index)` (lines 128-131)
      let p := parseA rest
      (p.1, ⟨p.2.1, by
        have h := p.2.2.1
        constructor
        · exact Nat.le_succ_of_le h
        · intro _; exact Nat.lt_succ_of_le h⟩)
    else
      let t := trimSpaces l
      if t.take 6 = gGROUP then
        -- group record (lines 136-156)
        let res := parseChildrenA (getDepth l) [] rest
        (res.1.map (fun cs => some (.group (t.drop 6) cs)), ⟨res.2.1, by
          have h := res.2.2
          constructor
          · exact Nat.le_succ_of_le h
          · intro _; exact Nat.lt_succ_of_le h⟩)
      else if t.take 5 = gGAME then
        -- leaf record (lines 158-172); in every branch the cursor moves past
        -- the line
        (gameStep (tokens (t.drop 5)), ⟨rest, by simp⟩)
      else
        -- unrecognized record: `index++; return nullptr` (lines 175-176)
        (.ok none, ⟨rest, by simp⟩)
termination_by ls => 2 * ls.length
decreasing_by
  all_goals simp_wf
  all_goals omega

/-- The child-scanning loop of the group branch (lines 141-155), at the group's
own depth `d`, with the children accumulated so far in `acc`. -/
def parseChildrenA (d : Nat) (acc : List Component) :
    (ls : List Line) →
      Except Unit (List Component) × {r : List Line // r.length ≤ ls.length}
  | [] => (.ok acc, ⟨[], by simp⟩)
  | l :: rest =>
    if l = [] then
      -- blank line inside the loop: `index++; continue` (lines 142-145)
      let p := parseChildrenA d acc rest
      (p.1, ⟨p.2.1, Nat.le_succ_of_le p.2.2⟩)
    else
      if getDepth l ≤ d then
        -- `if (nextDepth <= currentDepth) break;` — the line is not consumed
        (.ok acc, ⟨l :: rest, by simp⟩)
      else if getDepth l = d + 1 then
        -- `child = parse(lines, index); if (child) group->add(child)`
        match parseA (l :: rest) with
        | (.error e, r) => (.error e, ⟨r.1, r.2.1⟩)
        | (.ok oc, r) =>
          let p := parseChildrenA d (acc ++ oc.toList) r.1
          (p.1, ⟨p.2.1, Nat.le_trans p.2.2 r.2.1⟩)
      else
        -- over-indented orphan line: `index++` and keep scanning (line 153)
        let p := parseChildrenA d acc rest
        (p.1, ⟨p.2.1, Nat.le_succ_of_le p.2.2⟩)
termination_by ls => 2 * ls.length + 1
decreasing_by
  all_goals simp_wf
  · -- the loop continues on the suffix left by a successful child parse,
    -- which consumed at least one line
    have h := r.2.2 (by simp)
    simp only [List.length_cons] at h ⊢
    omega

end

/-- The parse result with the plain unconsumed suffix. -/
def parseRes (ls : List Line) : Except Unit (Option Component) × List Line :=
  ((parseA ls).1, (parseA ls).2.1)

/-- The child-loop result with the plain unconsumed suffix. -/
def childrenRes (d : Nat) (acc : List Component) (ls : List Line) :
    Except Unit (List Component) × List Line :=
  ((parseChildrenA d acc ls).1, (parseChildrenA d acc ls).2.1)

/-! ### Top-level file operations -/

/-- `loadFromFile` (lines 179-191): `none` input models a source that cannot
be opened, where the function returns `nullptr` (`Except.ok none`); otherwise
the stream is split into lines and parsed from cursor 0. -/
def loadFromFile : Option (List Char) → Except Unit (Option Component)
  | none => .ok none
  | some content => (parseRes (splitLines content)).1

/-- `saveToFile` (lines 193-199): the Bool says whether the destination could
be opened.  Returns the content written to the destination (`none`: nothing
written) and the console lines printed. -/
def saveToFile (root : Component) (filename : List Char) (canOpen : Bool) :
    Option (List Char) × List (List Char) :=
  if canOpen then
    (some (save root 0), [('S' :: 'a' :: 'v' :: 'e' :: 'd' :: ' ' :: 't' :: 'o' :: ':' :: ' ' :: filename)])
  else (none, [])

/-- The load menu action (`main`, lines 289-298): on a loaded group root the
tree is replaced (flag `true`, "Loaded from" printed); otherwise — load
returned null or a non-group — the current tree is kept and failure is
reported (flag `false`, "Failed to load file!" printed).  An uncaught
`std::stod` exception propagates (`Except.error`). -/
def loadStep (root : Component) (file : Option (List Char)) :
    Except Unit (Component × Bool) :=
  match loadFromFile file with
  | .error e => .error e
  | .ok (some c) => if isGroup c then .ok (c, true) else .ok (root, false)
  | .ok none => .ok (root, false)

/-! ### Well-formedness predicates -/

/-- No newline in a name (a newline would break the line structure). -/
def noNlB (n : List Char) : Bool := n.all (fun c => c ≠ '\n')

/-- A game name that survives tokenize-and-rejoin: it has at least one
whitespace-free token and is exactly its tokens joined by single spaces
(no leading/trailing/double spaces, no tabs or newlines, not empty). -/
def goodGameName (n : List Char) : Bool :=
  !(tokens n).isEmpty && n == joinSp (tokens n)

mutual

/-- Canonical trees: group names have no newline, game names survive
tokenize-and-rejoin, revenues have finite decimal expansions (as every
`double` does). -/
def canonicalB : Component → Bool
  | .game n r => goodGameName n && decimalDenB r
  | .group n cs => noNlB n && canonicalListB cs

/-- `canonicalB` on every tree of a forest. -/
def canonicalListB : List Component → Bool
  | [] => true
  | c :: cs => canonicalB c && canonicalListB cs

end

/-- `pat` occurs as a contiguous prefix of `l`. -/
def isPrefixOfB : List Char → List Char → Bool
  | [], _ => true
  | _ :: _, [] => false
  | a :: as, b :: bs => a == b && isPrefixOfB as bs

/-- `pat` occurs as a contiguous substring of `l`. -/
def containsSub (pat : List Char) : List Char → Bool
  | [] => isPrefixOfB pat []
  | l@(_ :: rest) => isPrefixOfB pat l || containsSub pat rest

/-- A name free of the reserved prefixes "GROUP " and "GAME ". -/
def noReservedName (n : List Char) : Bool :=
  !(containsSub gGROUP n) && !(containsSub gGAME n)

mutual

/-- Every name in the tree is free of the reserved prefixes (the hypothesis of
claim C1 as stated). -/
def noReservedB : Component → Bool
  | .game n _ => noReservedName n
  | .group n cs => noReservedName n && noReservedListB cs

/-- `noReservedB` on every tree of a forest. -/
def noReservedListB : List Component → Bool
  | [] => true
  | c :: cs => noReservedB c && noReservedListB cs

end

/-- The continuation after a serialized subtree at depth `d` must start (if at
all) with a nonblank line of depth at most `d`, so that the group loop stops
there. -/
def firstStops (d : Nat) : List Line → Prop
  | [] => True
  | l :: _ => l ≠ [] ∧ getDepth l ≤ d

instance (d : Nat) (ls : List Line) : Decidable (firstStops d ls) := by
  cases ls <;> simp [firstStops] <;> infer_instance

/-- `insBlank xs ys`: `ys` is `xs` with extra blank lines inserted anywhere. -/
inductive insBlank : List Line → List Line → Prop
  | nil : insBlank [] []
  | cons (l : Line) {xs ys : List Line} : insBlank xs ys → insBlank (l :: xs) (l :: ys)
  | blank {xs ys : List Line} : insBlank xs ys → insBlank xs ([] :: ys)

/-! ## Unfolding lemmas for the parser -/

theorem parseRes_nil : parseRes [] = (.ok none, []) := by
  simp [parseRes, parseA]

theorem parseRes_blank (rest : List Line) : parseRes ([] :: rest) = parseRes rest := by
  simp [parseRes, parseA]

theorem parseRes_group (l : Line) (rest : List Line) (hl : l ≠ [])
    (hg : (trimSpaces l).take 6 = gGROUP) :
    parseRes (l :: rest) =
      ((childrenRes (getDepth l) [] rest).1.map
          (fun cs => some (.group ((trimSpaces l).drop 6) cs)),
        (childrenRes (getDepth l) [] rest).2) := by
  simp [parseRes, parseA, childrenRes, hl, hg]

/-- A line whose trimmed form starts with "GAME " cannot pass the "GROUP "
check that the parser performs first. -/
theorem game_not_group {x : List Char} (hg : x.take 5 = gGAME) :
    x.take 6 ≠ gGROUP := by
  intro h
  have h5 := congrArg (List.take 5) h
  rw [List.take_take] at h5
  norm_num at h5
  rw [hg] at h5
  simp [gGAME, gGROUP] at h5

theorem parseRes_game (l : Line) (rest : List Line) (hl : l ≠ [])
    (hg : (trimSpaces l).take 5 = gGAME) :
    parseRes (l :: rest) = (gameStep (tokens ((trimSpaces l).drop 5)), rest) := by
  simp [parseRes, parseA, hl, game_not_group hg, hg]

theorem parseRes_other (l : Line) (rest : List Line) (hl : l ≠ [])
    (h1 : (trimSpaces l).take 6 ≠ gGROUP) (h2 : (trimSpaces l).take 5 ≠ gGAME) :
    parseRes (l :: rest) = (.ok none, rest) := by
  simp [parseRes, parseA, hl, h1, h2]

theorem childrenRes_nil (d : Nat) (acc : List Component) :
    childrenRes d acc [] = (.ok acc, []) := by
  simp [childrenRes, parseChildrenA]

theorem childrenRes_blank (d : Nat) (acc : List Component) (rest : List Line) :
    childrenRes d acc ([] :: rest) = childrenRes d acc rest := by
  simp [childrenRes, parseChildrenA]

theorem childrenRes_stop (d : Nat) (acc : List Component) (l : Line)
    (rest : List Line) (hl : l ≠ []) (hd : getDepth l ≤ d) :
    childrenRes d acc (l :: rest) = (.ok acc, l :: rest) := by
  simp [childrenRes, parseChildrenA, hl, hd]

theorem childrenRes_child (d : Nat) (acc : List Component) (l : Line)
    (rest : List Line) (oc : Option Component) (r' : List Line) (hl : l ≠ [])
    (hd : getDepth l = d + 1) (hp : parseRes (l :: rest) = (.ok oc, r')) :
    childrenRes d acc (l :: rest) = childrenRes d (acc ++ oc.toList) r' := by
  rw [parseRes, Prod.mk.injEq] at hp
  obtain ⟨h1, h2⟩ := hp
  have hnle : ¬ getDepth l ≤ d := by omega
  rcases hpe : parseA (l :: rest) with ⟨res1, r⟩
  rw [hpe] at h1 h2
  simp only at h1 h2
  subst h1
  simp [childrenRes, parseChildrenA, hl, hnle, hd, hpe]
  rw [h2]
  exact ⟨rfl, rfl⟩

theorem childrenRes_child_error (d : Nat) (acc : List Component) (l : Line)
    (rest : List Line) (e : Unit) (r' : List Line) (hl : l ≠ [])
    (hd : getDepth l = d + 1) (hp : parseRes (l :: rest) = (.error e, r')) :
    childrenRes d acc (l :: rest) = (.error e, r') := by
  rw [parseRes, Prod.mk.injEq] at hp
  obtain ⟨h1, h2⟩ := hp
  have hnle : ¬ getDepth l ≤ d := by omega
  rcases hpe : parseA (l :: rest) with ⟨res1, r⟩
  rw [hpe] at h1 h2
  simp only at h1 h2
  subst h1
  simp [childrenRes, parseChildrenA, hl, hnle, hd, hpe, h2]

theorem childrenRes_orphan (d : Nat) (acc : List Component) (l : Line)
    (rest : List Line) (hl : l ≠ []) (hd : d + 1 < getDepth l) :
    childrenRes d acc (l :: rest) = childrenRes d acc rest := by
  have h1 : ¬ getDepth l ≤ d := by omega
  have h2 : ¬ getDepth l = d + 1 := by omega
  simp [childrenRes, parseChildrenA, hl, h1, h2]

/-- A parse call on a nonempty line list consumes at least one line. -/
theorem parseRes_progress (ls : List Line) (h : ls ≠ []) :
    (parseRes ls).2.length < ls.length := (parseA ls).2.2.2 h

/-- A degenerate leaf record (fewer than two tokens) yields no node. -/
theorem gameStep_degenerate (parts : List (List Char)) (h : parts.length < 2) :
    gameStep parts = .ok none := by
  simp [gameStep, show ¬ 2 ≤ parts.length by omega]

/-! ## Revenue aggregation (claim C2) -/

theorem getAllGames_cons (c : Component) (cs : List Component) :
    getAllGames (c :: cs) = getAllGames [c] ++ getAllGames cs := by
  cases c <;> simp [getAllGames]

mutual

theorem getRevenue_games (c : Component) :
    getRevenue c = ((getAllGames [c]).map getRevenue).sum := by
  cases c with
  | game n r => simp [getRevenue, getAllGames]
  | group n cs =>
    have h := sumRevAux_games cs 0
    simp [getRevenue, getAllGames, h]

theorem sumRevAux_games (cs : List Component) (t : ℚ) :
    sumRevAux cs t = t + ((getAllGames cs).map getRevenue).sum := by
  cases cs with
  | nil => simp [sumRevAux, getAllGames]
  | cons c cs =>
    have h1 := getRevenue_games c
    have h2 := sumRevAux_games cs (t + getRevenue c)
    rw [sumRevAux, h2, getAllGames_cons]
    simp [← h1]
    ring

end

/-! ## Order of children and leaves (claim C8) -/

mutual

theorem getAllGames_single_dfs (c : Component) :
    getAllGames [c] = dfsLeaves c := by
  cases c with
  | game n r => simp [getAllGames, dfsLeaves]
  | group n cs =>
    have h := getAllGames_dfs cs
    simp [getAllGames, dfsLeaves, h]

theorem getAllGames_dfs (cs : List Component) :
    getAllGames cs = dfsLeavesList cs := by
  cases cs with
  | nil => simp [getAllGames, dfsLeavesList]
  | cons c cs =>
    have h1 := getAllGames_single_dfs c
    have h2 := getAllGames_dfs cs
    rw [getAllGames_cons, h1, h2, dfsLeavesList]

end

/-! ## Claim theorems for C2, C3, C4, C5, C6, C9 -/

/-- C2: for every Group, `getRevenue` equals the sum of `getRevenue` over the
leaves returned by `getAllGames`; in particular an empty Group has revenue
`0.0`. -/
theorem c2_revenue_aggregation :
    (∀ (n : List Char) (cs : List Component),
        getRevenue (.group n cs) = ((getAllGames cs).map getRevenue).sum) ∧
    (∀ n : List Char, getRevenue (.group n []) = 0) := by
  constructor
  · intro n cs
    have h := sumRevAux_games cs 0
    simp [getRevenue, h]
  · intro n
    simp [getRevenue, sumRevAux]

/-- C8: `add` appends at the end of the children sequence, `getChildren`
returns the children in that insertion order, and `getAllGames` returns the
leaves of the subtree in depth-first, left-to-right order (the reference
order `dfsLeavesList`). -/
theorem c8_order_preservation :
    (∀ (n : List Char) (cs : List Component) (c : Component),
        getChildren (add (.group n cs) c) = getChildren (.group n cs) ++ [c]) ∧
    (∀ cs : List Component, getAllGames cs = dfsLeavesList cs) := by
  constructor
  · intro n cs c
    simp [add, getChildren]
  · exact getAllGames_dfs

/-- C3: for a line whose trimmed form begins with "GAME ", the remainder after
the 5-character prefix is whitespace-tokenized; with at least 2 tokens the
parser returns a leaf whose revenue is the numeric value of the last token and
whose name is the preceding tokens joined with single spaces; with fewer than
2 tokens the record is silently dropped and the cursor still advances past the
line. -/
theorem c3_leaf_record (l : Line) (rest : List Line) (suffix : List Char)
    (hl : l ≠ []) (ht : trimSpaces l = gGAME ++ suffix) :
    (∀ rev : ℚ, 2 ≤ (tokens suffix).length →
        stod? ((tokens suffix).getLastD []) = some rev →
        parseRes (l :: rest) =
          (.ok (some (.game (joinSp (tokens suffix).dropLast) rev)), rest)) ∧
    ((tokens suffix).length < 2 → parseRes (l :: rest) = (.ok none, rest)) := by
  have h5 : (trimSpaces l).take 5 = gGAME := by
    rw [ht]; simp [gGAME]
  have hdrop : (trimSpaces l).drop 5 = suffix := by
    rw [ht]; simp [gGAME]
  have hgame := parseRes_game l rest hl h5
  rw [hdrop] at hgame
  constructor
  · intro rev h2 hstod
    rw [hgame]
    rw [List.getLastD_eq_getLast?] at hstod
    simp [gameStep, h2, hstod]
  · intro hlt
    rw [hgame, gameStep_degenerate _ hlt]

/-- C4: scanning children of a group record at depth `d`, a nonblank line of
depth at most `d` stops the loop without being consumed; a line of depth
exactly `d + 1` is parsed recursively as one child (consuming its whole
subtree) which is appended when non-null; a line of depth greater than
`d + 1` is skipped as a single line and scanning continues. -/
theorem c4_group_scan (d : Nat) (acc : List Component) (l : Line)
    (rest : List Line) (hl : l ≠ []) :
    (getDepth l ≤ d → childrenRes d acc (l :: rest) = (.ok acc, l :: rest)) ∧
    (getDepth l = d + 1 → ∀ (oc : Option Component) (r' : List Line),
        parseRes (l :: rest) = (.ok oc, r') →
        childrenRes d acc (l :: rest) = childrenRes d (acc ++ oc.toList) r') ∧
    (d + 1 < getDepth l → childrenRes d acc (l :: rest) = childrenRes d acc rest) := by
  refine ⟨fun h => childrenRes_stop d acc l rest hl h, fun h oc r' hp => ?_, fun h => childrenRes_orphan d acc l rest hl h⟩
  exact childrenRes_child d acc l rest oc r' hl h hp

/-- C5: a load source that cannot be opened, or a parse that yields no node,
makes the load step report failure and leave the current tree untouched. -/
theorem c5_load_failure :
    (∀ root : Component, loadStep root none = .ok (root, false)) ∧
    (∀ (root : Component) (content : List Char),
        (parseRes (splitLines content)).1 = .ok none →
        loadStep root (some content) = .ok (root, false)) := by
  constructor
  · intro root
    simp [loadStep, loadFromFile]
  · intro root content h
    simp [loadStep, loadFromFile, h]

/-- C6: a nonblank line recognized neither as "GROUP " nor as "GAME " is
silently skipped (one line consumed, nothing contributed); a degenerate
"GAME " record with fewer than two tokens likewise; an over-indented orphan
line inside a group scan likewise — all return `Except.ok`, never aborting
the load. -/
theorem c6_lenient_recovery (l : Line) (rest : List Line) (hl : l ≠ []) :
    ((trimSpaces l).take 6 ≠ gGROUP → (trimSpaces l).take 5 ≠ gGAME →
        parseRes (l :: rest) = (.ok none, rest)) ∧
    ((trimSpaces l).take 5 = gGAME → (tokens ((trimSpaces l).drop 5)).length < 2 →
        parseRes (l :: rest) = (.ok none, rest)) ∧
    (∀ (d : Nat) (acc : List Component), d + 1 < getDepth l →
        childrenRes d acc (l :: rest) = childrenRes d acc rest) := by
  refine ⟨fun h1 h2 => parseRes_other l rest hl h1 h2, fun h1 h2 => ?_, fun d acc h => childrenRes_orphan d acc l rest hl h⟩
  rw [parseRes_game l rest hl h1, gameStep_degenerate _ h2]

/-- C9 counterexample: when the destination cannot be opened, `saveToFile`
produces no output at all — nothing is written to the destination and nothing
is printed; in particular no WriteFailure reaches the caller (the C++
function returns `void` and its failure branch is empty). -/
theorem c9_counterexample :
    saveToFile (.group [] []) [] false = (none, []) := rfl

/-- C9 (amended): when the destination cannot be opened nothing is written
and nothing is printed — the failure is silent, not surfaced; when it can be
opened, the serialized tree is written and a success message printed. -/
theorem c9_silent_write_failure :
    (∀ (root : Component) (fn : List Char), saveToFile root fn false = (none, [])) ∧
    (∀ (root : Component) (fn : List Char),
        (saveToFile root fn true).1 = some (save root 0)) := by
  exact ⟨fun root fn => rfl, fun root fn => rfl⟩

/-- C3 witness: the spec scenario `GAME Lucky 7 Slot 10` parses to a leaf
named "Lucky 7 Slot" with revenue 10, consuming the line. -/
theorem c3_leaf_record_witness :
    parseRes [("GAME Lucky 7 Slot 10").data] =
      (.ok (some (.game (("Lucky 7 Slot").data) 10)), []) := by
  have hstod : stod? ((tokens (("Lucky 7 Slot 10").data)).getLastD []) = some 10 := by
    rw [show (tokens (("Lucky 7 Slot 10").data)).getLastD [] = ("10").data from by decide]
    simp [stod?, takeDigits, charDigit, parseDigitsB]
  have h := (c3_leaf_record (("GAME Lucky 7 Slot 10").data) [] (("Lucky 7 Slot 10").data)
      (by decide) (by decide)).1 10 (by decide) hstod
  rw [h, show joinSp ((tokens (("Lucky 7 Slot 10").data)).dropLast) = ("Lucky 7 Slot").data
      from by decide]

/-- C4 witness: the three scan cases at concrete inputs — a depth-0 line stops
the depth-0 scan unconsumed; a depth-1 line is parsed as one child and
appended; a depth-2 orphan line is skipped. -/
theorem c4_group_scan_witness :
    childrenRes 0 [] [("GROUP B").data] = (.ok [], [("GROUP B").data]) ∧
    childrenRes 0 [] [("  GAME x 1").data] = (.ok [.game (("x").data) 1], []) ∧
    childrenRes 0 [] [("    GAME y 2").data] = (.ok [], []) := by
  refine ⟨(c4_group_scan 0 [] (("GROUP B").data) [] (by decide)).1 (by decide), ?_, ?_⟩
  · have hg := parseRes_game (("  GAME x 1").data) [] (by decide) (by decide)
    have he : gameStep (tokens ((trimSpaces (("  GAME x 1").data)).drop 5)) =
        .ok (some (.game (("x").data) 1)) := by
      rw [show tokens ((trimSpaces (("  GAME x 1").data)).drop 5) = [("x").data, ("1").data]
          from by decide]
      simp [gameStep, stod?, takeDigits, charDigit, parseDigitsB, joinSp]
    have hp : parseRes [("  GAME x 1").data] = (.ok (some (.game (("x").data) 1)), []) := by
      rw [hg, he]
    have h := (c4_group_scan 0 [] (("  GAME x 1").data) [] (by decide)).2.1 (by decide)
      (some (.game (("x").data) 1)) [] hp
    rw [h, childrenRes_nil]
    simp
  · have h := (c4_group_scan 0 [] (("    GAME y 2").data) [] (by decide)).2.2 (by decide)
    rw [h, childrenRes_nil]

/-- C5 witness: an unopenable source and an empty (no-node) source both leave
the tree untouched and report failure. -/
theorem c5_load_failure_witness :
    loadStep (.group (("R").data) []) none = .ok (.group (("R").data) [], false) ∧
    loadStep (.group (("R").data) []) (some []) = .ok (.group (("R").data) [], false) := by
  constructor
  · exact c5_load_failure.1 _
  · refine c5_load_failure.2 _ [] ?_
    rw [show splitLines [] = [] from rfl, parseRes_nil]

/-- C6 witness: an unrecognized line and a degenerate one-token GAME record
are both skipped with `Except.ok none`, and a deep orphan line is skipped by
the scan — at concrete inputs. -/
theorem c6_lenient_recovery_witness :
    parseRes [("hello world").data] = (.ok none, []) ∧
    parseRes [("GAME onlyname").data] = (.ok none, []) ∧
    childrenRes 1 [] [("      GAME z 3").data] = (.ok [], []) := by
  refine ⟨(c6_lenient_recovery (("hello world").data) [] (by decide)).1 (by decide) (by decide),
    (c6_lenient_recovery (("GAME onlyname").data) [] (by decide)).2.1 (by decide) (by decide), ?_⟩
  have h := (c6_lenient_recovery (("      GAME z 3").data) [] (by decide)).2.2 1 [] (by decide)
  rw [h, childrenRes_nil]

/-! ## Decimal numeral lemmas -/

theorem natDigitsRevAux_zero (fuel : Nat) : natDigitsRevAux fuel 0 = [] := by
  cases fuel <;> simp [natDigitsRevAux]

theorem natDigitsRevAux_eq (fuel1 : Nat) :
    ∀ fuel2 n, n ≤ fuel1 → n ≤ fuel2 →
      natDigitsRevAux fuel1 n = natDigitsRevAux fuel2 n := by
  induction fuel1 with
  | zero =>
    intro fuel2 n h1 _
    interval_cases n
    rw [natDigitsRevAux_zero, natDigitsRevAux_zero]
  | succ f ih =>
    intro fuel2 n h1 h2
    by_cases hn : n = 0
    · subst hn
      rw [natDigitsRevAux_zero, natDigitsRevAux_zero]
    · cases fuel2 with
      | zero => omega
      | succ f2 =>
        simp only [natDigitsRevAux, hn, if_neg]
        have hlt : n / 10 < n := Nat.div_lt_self (by omega) (by omega)
        rw [ih f2 (n / 10) (by omega) (by omega)]

theorem natDigitsRev_zero : natDigitsRev 0 = [] := rfl

theorem natDigitsRev_succ (n : Nat) (h : n ≠ 0) :
    natDigitsRev n = n % 10 :: natDigitsRev (n / 10) := by
  have hn : ∃ m, n = m + 1 := ⟨n - 1, by omega⟩
  obtain ⟨m, rfl⟩ := hn
  show natDigitsRevAux (m + 1) (m + 1) = _
  rw [natDigitsRevAux, if_neg h]
  rw [natDigitsRev]
  have hlt : (m + 1) / 10 < m + 1 := Nat.div_lt_self (by omega) (by omega)
  rw [natDigitsRevAux_eq m ((m + 1) / 10) ((m + 1) / 10) (by omega) (by omega)]

theorem ofDigitsRev_natDigitsRev (n : Nat) : ofDigitsRev (natDigitsRev n) = n := by
  induction n using Nat.strong_induction_on with
  | _ n ih =>
    by_cases hn : n = 0
    · subst hn; rfl
    · rw [natDigitsRev_succ n hn, ofDigitsRev,
        ih (n / 10) (Nat.div_lt_self (by omega) (by omega))]
      omega

theorem natDigitsRev_lt (n : Nat) : ∀ d ∈ natDigitsRev n, d < 10 := by
  induction n using Nat.strong_induction_on with
  | _ n ih =>
    by_cases hn : n = 0
    · subst hn; simp [natDigitsRev_zero]
    · rw [natDigitsRev_succ n hn]
      intro d hd
      rcases List.mem_cons.mp hd with h | h
      · omega
      · exact ih (n / 10) (Nat.div_lt_self (by omega) (by omega)) d h

theorem natDigitsRev_length_le (k : Nat) :
    ∀ n, n < 10 ^ k → (natDigitsRev n).length ≤ k := by
  induction k with
  | zero =>
    intro n h
    interval_cases n
    simp [natDigitsRev_zero]
  | succ k ih =>
    intro n h
    by_cases hn : n = 0
    · subst hn; simp [natDigitsRev_zero]
    · rw [natDigitsRev_succ n hn]
      have hdiv : n / 10 < 10 ^ k := by
        rw [pow_succ] at h
        omega
      have := ih (n / 10) hdiv
      simp only [List.length_cons]
      omega

theorem parseDigitsB_nil : parseDigitsB [] = 0 := rfl

theorem parseDigitsB_reverse (ds : List Nat) :
    parseDigitsB ds.reverse = ofDigitsRev ds := by
  induction ds with
  | nil => rfl
  | cons d ds ih =>
    rw [List.reverse_cons, parseDigitsB, List.foldl_append, ofDigitsRev]
    simp only [List.foldl]
    rw [show List.foldl (fun a d => 10 * a + d) 0 ds.reverse = parseDigitsB ds.reverse from rfl,
      ih]
    omega

theorem parseDigitsB_zeros (z : Nat) (ds : List Nat) :
    parseDigitsB (List.replicate z 0 ++ ds) = parseDigitsB ds := by
  induction z with
  | zero => simp
  | succ z ih =>
    rw [List.replicate_succ, List.cons_append, parseDigitsB]
    simp only [List.foldl]
    rw [show (10 * 0 + 0 : Nat) = 0 from rfl]
    exact ih

/-- All the character-level facts about decimal digit characters. -/
theorem digitChar_facts :
    ∀ d, d < 10 → (digitChar d).isDigit = true ∧ charDigit (digitChar d) = d ∧
      digitChar d ≠ '-' ∧ digitChar d ≠ '+' ∧ digitChar d ≠ '.' ∧
      (digitChar d).isWhitespace = false ∧ digitChar d ≠ '\n' := by decide

theorem takeDigits_digits (ds : List Nat) (h : ∀ d ∈ ds, d < 10)
    (rest : List Char) :
    takeDigits (ds.map digitChar ++ rest) =
      (ds ++ (takeDigits rest).1, (takeDigits rest).2) := by
  induction ds with
  | nil => simp
  | cons d ds ih =>
    have hd := digitChar_facts d (h d (by simp))
    simp only [List.map_cons, List.cons_append, takeDigits, hd.1, if_pos, hd.2.1,
      List.append_eq]
    rw [ih (fun x hx => h x (by simp [hx]))]

theorem takeDigits_nondigit (l : List Char) (h : (l.headD ' ').isDigit = false) :
    takeDigits l = ([], l) := by
  cases l with
  | nil => rfl
  | cons c rest =>
    simp only [List.headD_cons] at h
    simp [takeDigits, h]

theorem natStr_eq_map (n : Nat) : natStr n = (natStrVals n).map digitChar := by
  by_cases hn : n = 0
  · subst hn
    show ['0'] = [digitChar 0]
    decide
  · simp [natStr, natStrVals, hn]

theorem natStrVals_lt (n : Nat) : ∀ d ∈ natStrVals n, d < 10 := by
  by_cases hn : n = 0
  · subst hn; simp [natStrVals]
  · simp only [natStrVals]
    rw [if_neg hn]
    intro d hd
    exact natDigitsRev_lt n d (List.mem_reverse.mp hd)

theorem natStrVals_ne_nil (n : Nat) : natStrVals n ≠ [] := by
  by_cases hn : n = 0
  · subst hn; simp [natStrVals]
  · simp only [natStrVals]
    rw [if_neg hn, natDigitsRev_succ n hn]
    simp

theorem parseDigitsB_natStrVals (n : Nat) : parseDigitsB (natStrVals n) = n := by
  by_cases hn : n = 0
  · subst hn; rfl
  · simp only [natStrVals]
    rw [if_neg hn, parseDigitsB_reverse, ofDigitsRev_natDigitsRev]

theorem padVals_lt (k r : Nat) : ∀ d ∈ padVals k r, d < 10 := by
  intro d hd
  rcases List.mem_append.mp hd with h | h
  · have := List.eq_of_mem_replicate h
    omega
  · exact natDigitsRev_lt r d (List.mem_reverse.mp h)

theorem parseDigitsB_padVals (k r : Nat) : parseDigitsB (padVals k r) = r := by
  rw [padVals, parseDigitsB_zeros, parseDigitsB_reverse, ofDigitsRev_natDigitsRev]

theorem padVals_length (k r : Nat) (h : r < 10 ^ k) : (padVals k r).length = k := by
  have := natDigitsRev_length_le k r h
  simp [padVals]
  omega

theorem padVals_ne_nil (k r : Nat) (hk : k ≠ 0) (h : r < 10 ^ k) :
    padVals k r ≠ [] := by
  intro hnil
  have := padVals_length k r h
  rw [hnil] at this
  simp at this
  omega

/-- Evaluation of the idealized `std::stod` on a sign, integer digits and
optional fraction digits. -/
theorem stod?_decimal (ivals fvals : List Nat) (hi : ∀ d ∈ ivals, d < 10)
    (hf : ∀ d ∈ fvals, d < 10) (hine : ivals ≠ []) (neg : Prop) [Decidable neg] :
    stod? ((if neg then ['-'] else []) ++ ivals.map digitChar ++
        (if fvals = [] then [] else '.' :: fvals.map digitChar)) =
      some ((if neg then (-1 : ℚ) else 1) *
        ((parseDigitsB ivals : ℚ) + (parseDigitsB fvals : ℚ) / 10 ^ fvals.length)) := by
  obtain ⟨d0, ivals', rfl⟩ : ∃ d0 ivals', ivals = d0 :: ivals' := by
    cases ivals with
    | nil => exact absurd rfl hine
    | cons a as => exact ⟨a, as, rfl⟩
  have hd0 := digitChar_facts d0 (hi d0 (by simp))
  have hneg : (digitChar d0 == '-') = false := beq_eq_false_iff_ne.mpr hd0.2.2.1
  have hplus : (digitChar d0 == '+') = false := beq_eq_false_iff_ne.mpr hd0.2.2.2.1
  by_cases hfe : fvals = []
  · subst hfe
    have h1 : takeDigits (digitChar d0 :: List.map digitChar ivals') =
        (d0 :: ivals', []) := by
      have h := takeDigits_digits (d0 :: ivals') hi []
      simpa [takeDigits] using h
    by_cases hb : neg
    · simp [stod?, h1, hb, parseDigitsB_nil]
    · simp [stod?, h1, hneg, hplus, hb, parseDigitsB_nil]
  · have h1 : takeDigits (digitChar d0 ::
        (List.map digitChar ivals' ++ '.' :: List.map digitChar fvals)) =
        (d0 :: ivals', '.' :: List.map digitChar fvals) := by
      have h := takeDigits_digits (d0 :: ivals') hi ('.' :: List.map digitChar fvals)
      rw [takeDigits_nondigit ('.' :: List.map digitChar fvals)
        (by rw [List.headD_cons]; decide)] at h
      simpa using h
    have h2 : takeDigits (List.map digitChar fvals) = (fvals, []) := by
      have h := takeDigits_digits fvals hf []
      simpa [takeDigits] using h
    rw [if_neg hfe]
    by_cases hb : neg
    · simp [stod?, h1, h2, hb]
    · simp [stod?, h1, h2, hneg, hplus, hb]

/-- No-fraction specialization of `stod?_decimal`. -/
theorem stod?_decimal_nofrac (ivals : List Nat) (hi : ∀ d ∈ ivals, d < 10)
    (hine : ivals ≠ []) (neg : Prop) [Decidable neg] :
    stod? ((if neg then ['-'] else []) ++ ivals.map digitChar) =
      some ((if neg then (-1 : ℚ) else 1) * (parseDigitsB ivals : ℚ)) := by
  have h := stod?_decimal ivals [] hi (by simp) hine neg
  simpa [parseDigitsB_nil] using h

/-- Reconstructing a rational from the integer and fraction parts of its
scaled numerator. -/
theorem rat_reconstruct (q : ℚ) (k : Nat) (hdvd : q.den ∣ 10 ^ k) :
    ((if q.num < 0 then (-1 : ℚ) else 1) *
      (((q.num.natAbs * (10 ^ k / q.den) / 10 ^ k : ℕ) : ℚ) +
        ((q.num.natAbs * (10 ^ k / q.den) % 10 ^ k : ℕ) : ℚ) / 10 ^ k)) = q := by
  have hden : (q.den : ℚ) ≠ 0 := Nat.cast_ne_zero.mpr q.den_nz
  have hE : ((10 : ℚ)) ^ k ≠ 0 := by positivity
  set n := q.num.natAbs with hn
  set m := n * (10 ^ k / q.den) with hm
  have hmden : m * q.den = n * 10 ^ k := by
    rw [hm, mul_assoc, Nat.div_mul_cancel hdvd]
  have hsplit : ((m / 10 ^ k : ℕ) : ℚ) + ((m % 10 ^ k : ℕ) : ℚ) / 10 ^ k
      = (m : ℚ) / 10 ^ k := by
    have hc : ((m : ℕ) : ℚ) =
        (10 : ℚ) ^ k * ((m / 10 ^ k : ℕ) : ℚ) + ((m % 10 ^ k : ℕ) : ℚ) := by
      exact_mod_cast (Nat.div_add_mod m (10 ^ k)).symm
    rw [hc]
    field_simp
    ring
  have hfrac : ((m / 10 ^ k : ℕ) : ℚ) + ((m % 10 ^ k : ℕ) : ℚ) / 10 ^ k
      = (n : ℚ) / q.den := by
    rw [hsplit, div_eq_div_iff hE hden]
    exact_mod_cast hmden
  rw [hfrac]
  by_cases hq : q.num < 0
  · rw [if_pos hq]
    have habs : (n : ℚ) = -(q.num : ℚ) := by
      rw [hn, Int.cast_natAbs, abs_of_neg (by exact_mod_cast hq)]
      push_cast
      ring
    rw [habs]
    have : (-1 : ℚ) * (-(q.num : ℚ) / q.den) = (q.num : ℚ) / q.den := by ring
    rw [this, Rat.num_div_den]
  · rw [if_neg hq, one_mul]
    have habs : (n : ℚ) = (q.num : ℚ) := by
      rw [hn, Int.cast_natAbs, abs_of_nonneg (by exact_mod_cast not_lt.mp hq)]
    rw [habs, Rat.num_div_den]

/-- `dtos` written in the shape consumed by `stod?_decimal`. -/
theorem dtos_eq_shape (q : ℚ) :
    dtos q = (if q.num < 0 then ['-'] else []) ++
      (natStrVals (q.num.natAbs * (10 ^ decExp q / q.den) / 10 ^ decExp q)).map
        digitChar ++
      (if decExp q = 0 then []
        else '.' :: (padVals (decExp q)
          (q.num.natAbs * (10 ^ decExp q / q.den) % 10 ^ decExp q)).map digitChar) := by
  simp only [dtos, natStr_eq_map]

/-- The idealized codec round-trips every rational with a finite decimal
expansion — which every `double` revenue is. -/
theorem stod?_dtos (q : ℚ) (h : decimalDenB q = true) : stod? (dtos q) = some q := by
  have hmod : 10 ^ decExp q % q.den = 0 := of_decide_eq_true h
  have hdvd : q.den ∣ 10 ^ decExp q := Nat.dvd_of_mod_eq_zero hmod
  have hr := rat_reconstruct q (decExp q) hdvd
  have hFlt : q.num.natAbs * (10 ^ decExp q / q.den) % 10 ^ decExp q < 10 ^ decExp q :=
    Nat.mod_lt _ (by positivity)
  rw [dtos_eq_shape]
  by_cases hk : decExp q = 0
  · rw [if_pos hk, List.append_nil,
      stod?_decimal_nofrac _ (natStrVals_lt _) (natStrVals_ne_nil _) (q.num < 0),
      parseDigitsB_natStrVals]
    rw [hk] at hr
    simp only [pow_zero, Nat.mod_one, Nat.cast_zero, zero_div, add_zero] at hr
    rw [hk]
    simp only [pow_zero]
    exact congrArg some hr
  · have hpne := padVals_ne_nil (decExp q) _ hk hFlt
    rw [show ('.' :: (padVals (decExp q)
        (q.num.natAbs * (10 ^ decExp q / q.den) % 10 ^ decExp q)).map digitChar) =
      (if padVals (decExp q)
          (q.num.natAbs * (10 ^ decExp q / q.den) % 10 ^ decExp q) = [] then []
        else '.' :: (padVals (decExp q)
          (q.num.natAbs * (10 ^ decExp q / q.den) % 10 ^ decExp q)).map digitChar)
      from (if_neg hpne).symm, if_neg hk,
      stod?_decimal _ _ (natStrVals_lt _) (padVals_lt _ _) (natStrVals_ne_nil _)
        (q.num < 0),
      parseDigitsB_natStrVals, parseDigitsB_padVals, padVals_length _ _ hFlt]
    exact congrArg some hr

/-! ## Tokenizer lemmas -/

/-- Every token produced by the tokenizer is nonempty and whitespace-free. -/
theorem tokensAux_good (l : List Char) :
    ∀ cur, (∀ c ∈ cur, c.isWhitespace = false) →
      ∀ t ∈ tokensAux l cur, t ≠ [] ∧ ∀ c ∈ t, c.isWhitespace = false := by
  induction l with
  | nil =>
    intro cur hcur t ht
    by_cases hc : cur = []
    · simp [tokensAux, hc] at ht
    · rw [tokensAux, if_neg hc] at ht
      simp only [List.mem_singleton] at ht
      subst ht
      refine ⟨by simpa using hc, fun c hcm => hcur c (List.mem_reverse.mp hcm)⟩
  | cons c l ih =>
    intro cur hcur t ht
    rw [tokensAux] at ht
    cases hw : c.isWhitespace with
    | true =>
      rw [hw] at ht
      simp only [if_true] at ht
      by_cases hc : cur = []
      · rw [if_pos hc] at ht
        exact ih [] (by simp) t ht
      · rw [if_neg hc] at ht
        rcases List.mem_cons.mp ht with h | h
        · subst h
          exact ⟨by simpa using hc, fun x hx => hcur x (List.mem_reverse.mp hx)⟩
        · exact ih [] (by simp) t h
    | false =>
      rw [hw] at ht
      simp only [Bool.false_eq_true, if_false] at ht
      refine ih (c :: cur) ?_ t ht
      intro x hx
      rcases List.mem_cons.mp hx with h | h
      · rw [h]; exact hw
      · exact hcur x h

/-- Every token of `tokens l` is nonempty and whitespace-free. -/
theorem tokens_good (l : List Char) :
    ∀ t ∈ tokens l, t ≠ [] ∧ ∀ c ∈ t, c.isWhitespace = false :=
  tokensAux_good l [] (by simp)

/-- The tokenizer consumes a whitespace-free chunk into the current token. -/
theorem tokensAux_chunk (t : List Char) (hw : ∀ c ∈ t, c.isWhitespace = false) :
    ∀ (l cur : List Char), tokensAux (t ++ l) cur = tokensAux l (t.reverse ++ cur) := by
  induction t with
  | nil => intro l cur; simp
  | cons c t ih =>
    intro l cur
    have hc : c.isWhitespace = false := hw c (by simp)
    rw [List.cons_append, tokensAux, hc]
    simp only [Bool.false_eq_true, if_false]
    rw [ih (fun x hx => hw x (by simp [hx])) l (c :: cur)]
    simp

/-- A space flushes the (nonempty) current token. -/
theorem tokensAux_space (l : List Char) (cur : List Char) (hc : cur ≠ []) :
    tokensAux (' ' :: l) cur = cur.reverse :: tokensAux l [] := by
  rw [tokensAux, show (' ').isWhitespace = true from by decide]
  simp [hc]

/-- Tokenizing a single nonempty whitespace-free token. -/
theorem tokens_single (t : List Char) (hne : t ≠ [])
    (hw : ∀ c ∈ t, c.isWhitespace = false) : tokens t = [t] := by
  have h := tokensAux_chunk t hw [] []
  rw [List.append_nil] at h
  rw [tokens, h, tokensAux]
  simp [hne]

/-- Tokenizing a space-joined token list followed by a space and a remainder. -/
theorem tokens_joinSp (ws : List (List Char))
    (hws : ∀ t ∈ ws, t ≠ [] ∧ ∀ c ∈ t, c.isWhitespace = false) (rest : List Char) :
    tokensAux (joinSp ws ++ ' ' :: rest) [] = ws ++ tokensAux rest [] := by
  induction ws with
  | nil =>
    rw [joinSp, List.nil_append, tokensAux, show (' ').isWhitespace = true from by decide]
    simp
  | cons t ws ih =>
    have ht := hws t (by simp)
    cases ws with
    | nil =>
      rw [show joinSp [t] = t from rfl, tokensAux_chunk t ht.2 (' ' :: rest) [],
        List.append_nil, tokensAux_space rest t.reverse (by simp [ht.1])]
      simp
    | cons t2 ws2 =>
      rw [show joinSp (t :: t2 :: ws2) = t ++ ' ' :: joinSp (t2 :: ws2) from rfl]
      rw [show (t ++ ' ' :: joinSp (t2 :: ws2)) ++ ' ' :: rest =
        t ++ ' ' :: (joinSp (t2 :: ws2) ++ ' ' :: rest) from by simp]
      rw [tokensAux_chunk t ht.2 _ [], List.append_nil,
        tokensAux_space _ t.reverse (by simp [ht.1])]
      rw [show tokensAux (joinSp (t2 :: ws2) ++ ' ' :: rest) [] =
        (t2 :: ws2) ++ tokensAux rest [] from ih (fun x hx => hws x (by simp [hx]))]
      simp

/-- Tokenizing `name ++ " " ++ tok` where `name` is a canonical space-joined
token list and `tok` is one further token. -/
theorem tokens_name_rev (ws : List (List Char))
    (hws : ∀ t ∈ ws, t ≠ [] ∧ ∀ c ∈ t, c.isWhitespace = false)
    (tok : List Char) (htne : tok ≠ [])
    (htw : ∀ c ∈ tok, c.isWhitespace = false) :
    tokens (joinSp ws ++ ' ' :: tok) = ws ++ [tok] := by
  rw [tokens, tokens_joinSp ws hws tok,
    show tokensAux tok [] = tokens tok from rfl, tokens_single tok htne htw]

/-- The characters of a space-joined token list are spaces or
non-whitespace. -/
theorem joinSp_chars (ws : List (List Char))
    (h : ∀ t ∈ ws, ∀ c ∈ t, c.isWhitespace = false) :
    ∀ c ∈ joinSp ws, c = ' ' ∨ c.isWhitespace = false := by
  induction ws with
  | nil => simp [joinSp]
  | cons t ws ih =>
    intro c hc
    cases ws with
    | nil =>
      rw [show joinSp [t] = t from rfl] at hc
      exact Or.inr (h t (by simp) c hc)
    | cons t2 ws2 =>
      rw [show joinSp (t :: t2 :: ws2) = t ++ ' ' :: joinSp (t2 :: ws2) from rfl] at hc
      rcases List.mem_append.mp hc with h1 | h1
      · exact Or.inr (h t (by simp) c h1)
      · rcases List.mem_cons.mp h1 with h2 | h2
        · exact Or.inl h2
        · exact ih (fun x hx => h x (by simp [hx])) c h2

theorem goodGameName_spec (n : List Char) (h : goodGameName n = true) :
    tokens n ≠ [] ∧ n = joinSp (tokens n) := by
  rw [goodGameName, Bool.and_eq_true] at h
  exact ⟨by simpa using h.1, eq_of_beq h.2⟩

/-- A non-whitespace character is not a newline. -/
theorem nonws_ne_nl {c : Char} (h : c.isWhitespace = false) : c ≠ '\n' := by
  intro he
  rw [he] at h
  exact absurd h (by decide)

theorem goodGameName_noNl (n : List Char) (h : goodGameName n = true) :
    ∀ c ∈ n, c ≠ '\n' := by
  obtain ⟨hne, heq⟩ := goodGameName_spec n h
  intro c hc
  rw [heq] at hc
  rcases joinSp_chars (tokens n) (fun t ht => (tokens_good n t ht).2) c hc with h1 | h1
  · rw [h1]; decide
  · exact nonws_ne_nl h1

/-! ## Characters of `dtos` -/

theorem dtos_chars (q : ℚ) : ∀ c ∈ dtos q, c.isWhitespace = false := by
  intro c hc
  rw [dtos_eq_shape] at hc
  simp only [List.mem_append] at hc
  rcases hc with (h1 | h1) | h1
  · split at h1
    · simp only [List.mem_singleton] at h1
      rw [h1]; decide
    · simp at h1
  · rcases List.mem_map.mp h1 with ⟨d, hd, rfl⟩
    exact (digitChar_facts d (natStrVals_lt _ d hd)).2.2.2.2.2.1
  · split at h1
    · simp at h1
    · rcases List.mem_cons.mp h1 with h2 | h2
      · rw [h2]; decide
      · rcases List.mem_map.mp h2 with ⟨d, hd, rfl⟩
        exact (digitChar_facts d (padVals_lt _ _ d hd)).2.2.2.2.2.1

theorem dtos_ne_nil (q : ℚ) : dtos q ≠ [] := by
  rw [dtos_eq_shape]
  intro h
  rcases List.append_eq_nil.mp h with ⟨h1, _⟩
  rcases List.append_eq_nil.mp h1 with ⟨_, h2⟩
  exact natStrVals_ne_nil _ (List.map_eq_nil_iff.mp h2)

/-! ## Line-splitting lemmas -/

theorem splitLinesAux_eq (f1 : Nat) :
    ∀ f2 s, s.length ≤ f1 → s.length ≤ f2 →
      splitLinesAux f1 s = splitLinesAux f2 s := by
  induction f1 with
  | zero =>
    intro f2 s h1 h2
    have hs : s = [] := by
      cases s with
      | nil => rfl
      | cons a t => simp at h1
    subst hs
    cases f2 <;> rfl
  | succ f ih =>
    intro f2 s h1 h2
    cases s with
    | nil => cases f2 <;> rfl
    | cons c t =>
      cases f2 with
      | zero => simp at h2
      | succ f2' =>
        simp only [splitLinesAux]
        congr 1
        have hd : ((c :: t).dropWhile (fun x => x ≠ '\n')).length ≤ (c :: t).length :=
          List.Sublist.length_le (List.dropWhile_sublist _)
        have htail : (((c :: t).dropWhile (fun x => x ≠ '\n')).tail).length =
            ((c :: t).dropWhile (fun x => x ≠ '\n')).length - 1 := List.length_tail _
        apply ih
        · simp only [List.length_cons] at hd h1
          omega
        · simp only [List.length_cons] at hd h2
          omega

theorem takeWhile_notNl (l : List Char) (h : ∀ c ∈ l, c ≠ '\n') (s : List Char) :
    (l ++ '\n' :: s).takeWhile (fun x => x ≠ '\n') = l := by
  induction l with
  | nil => simp
  | cons c l ih =>
    have hcne : c ≠ '\n' := h c (by simp)
    rw [List.cons_append, List.takeWhile_cons, if_pos (by simp [hcne]),
      ih (fun x hx => h x (by simp [hx]))]

theorem dropWhile_notNl (l : List Char) (h : ∀ c ∈ l, c ≠ '\n') (s : List Char) :
    (l ++ '\n' :: s).dropWhile (fun x => x ≠ '\n') = '\n' :: s := by
  induction l with
  | nil => simp
  | cons c l ih =>
    have hcne : c ≠ '\n' := h c (by simp)
    rw [List.cons_append, List.dropWhile_cons, if_pos (by simp [hcne])]
    exact ih (fun x hx => h x (by simp [hx]))

/-- `std::getline`: splitting off one newline-free line. -/
theorem splitLines_append (l : List Char) (hnl : ∀ c ∈ l, c ≠ '\n')
    (s : List Char) : splitLines (l ++ '\n' :: s) = l :: splitLines s := by
  obtain ⟨c0, t0, hct⟩ : ∃ c0 t0, l ++ '\n' :: s = c0 :: t0 := by
    cases l with
    | nil => exact ⟨'\n', s, rfl⟩
    | cons a t => exact ⟨a, t ++ '\n' :: s, rfl⟩
  rw [splitLines, hct]
  have hlen : (c0 :: t0).length = t0.length + 1 := rfl
  rw [show splitLinesAux (c0 :: t0).length (c0 :: t0) =
    splitLinesAux (t0.length + 1) (c0 :: t0) from by rw [hlen]]
  rw [splitLinesAux, ← hct, takeWhile_notNl l hnl s, dropWhile_notNl l hnl s]
  simp only [List.tail_cons]
  congr 1
  rw [splitLines]
  apply splitLinesAux_eq
  · have : (l ++ '\n' :: s).length = l.length + s.length + 1 := by simp; omega
    rw [hct] at this
    simp only [List.length_cons] at this
    omega
  · omega

/-! ## Indentation lemmas -/

theorem indent_chars (d : Nat) : ∀ c ∈ indent d, c = ' ' := by
  induction d with
  | zero => simp [indent]
  | succ d ih =>
    intro c hc
    rw [indent] at hc
    rcases List.mem_cons.mp hc with h | h
    · exact h
    · rcases List.mem_cons.mp h with h2 | h2
      · exact h2
      · exact ih c h2

theorem getDepth_indent (d : Nat) (c : Char) (hc : c ≠ ' ') (cs : List Char) :
    getDepth (indent d ++ c :: cs) = d := by
  induction d with
  | zero =>
    cases cs with
    | nil => rfl
    | cons c2 rest =>
      rw [indent, List.nil_append, getDepth, if_neg (by simp [hc])]
  | succ d ih =>
    rw [indent, List.cons_append, List.cons_append, getDepth, if_pos (by simp), ih]

theorem trimSpaces_indent (d : Nat) (c : Char) (hc : c ≠ ' ') (cs : List Char) :
    trimSpaces (indent d ++ c :: cs) = c :: cs := by
  induction d with
  | zero =>
    cases cs with
    | nil => rfl
    | cons c2 rest =>
      rw [indent, List.nil_append, trimSpaces, if_neg (by simp [hc])]
  | succ d ih =>
    rw [indent, List.cons_append, List.cons_append, trimSpaces, if_pos (by simp), ih]

/-! ## Canonicity destructors -/

theorem canonicalB_game (n : List Char) (r : ℚ)
    (h : canonicalB (.game n r) = true) :
    goodGameName n = true ∧ decimalDenB r = true := by
  rw [canonicalB, Bool.and_eq_true] at h
  exact h

theorem canonicalB_group (n : List Char) (cs : List Component)
    (h : canonicalB (.group n cs) = true) :
    noNlB n = true ∧ canonicalListB cs = true := by
  rw [canonicalB, Bool.and_eq_true] at h
  exact h

theorem canonicalListB_cons (c : Component) (cs : List Component)
    (h : canonicalListB (c :: cs) = true) :
    canonicalB c = true ∧ canonicalListB cs = true := by
  rw [canonicalListB, Bool.and_eq_true] at h
  exact h

theorem noNlB_spec (n : List Char) (h : noNlB n = true) : ∀ c ∈ n, c ≠ '\n' := by
  rw [noNlB, List.all_eq_true] at h
  intro c hc
  simpa using h c hc

theorem firstStops_mono {d1 d2 : Nat} (h : d1 ≤ d2) (ls : List Line)
    (hs : firstStops d1 ls) : firstStops d2 ls := by
  cases ls with
  | nil => trivial
  | cons l ls' => exact ⟨hs.1, Nat.le_trans hs.2 h⟩

/-! ## The serialized head line of a subtree -/

theorem game_line_noNl (d : Nat) (n : List Char) (r : ℚ)
    (hname : goodGameName n = true) :
    ∀ c ∈ indent d ++ gGAME ++ n ++ ' ' :: dtos r, c ≠ '\n' := by
  intro c hc
  simp only [List.append_assoc, List.mem_append, List.mem_cons] at hc
  rcases hc with h | h | h | h
  · rw [indent_chars d c h]; decide
  · exact (by decide : ∀ x ∈ gGAME, x ≠ '\n') c h
  · exact goodGameName_noNl n hname c h
  · rcases h with h | h
    · rw [h]; decide
    · exact nonws_ne_nl (dtos_chars r c h)

theorem group_line_noNl (d : Nat) (n : List Char) (hn : noNlB n = true) :
    ∀ c ∈ indent d ++ gGROUP ++ n, c ≠ '\n' := by
  intro c hc
  simp only [List.append_assoc, List.mem_append] at hc
  rcases hc with h | h | h
  · rw [indent_chars d c h]; decide
  · exact (by decide : ∀ x ∈ gGROUP, x ≠ '\n') c h
  · exact noNlB_spec n hn c h

/-- The first line of a serialized subtree at depth `d`: nonblank, of depth
exactly `d`. -/
theorem save_head (c : Component) (d : Nat) (s : List Char)
    (hc : canonicalB c = true) :
    ∃ l ls', splitLines (save c d ++ s) = l :: ls' ∧ l ≠ [] ∧ getDepth l = d := by
  cases c with
  | game n r =>
    obtain ⟨hname, hden⟩ := canonicalB_game n r hc
    refine ⟨indent d ++ gGAME ++ n ++ ' ' :: dtos r, splitLines s, ?_, ?_, ?_⟩
    · rw [show save (.game n r) d ++ s =
        (indent d ++ gGAME ++ n ++ ' ' :: dtos r) ++ '\n' :: s from by simp [save]]
      exact splitLines_append _ (game_line_noNl d n r hname) s
    · simp [gGAME]
    · have := getDepth_indent d 'G' (by decide)
        ('A' :: 'M' :: 'E' :: ' ' :: (n ++ ' ' :: dtos r))
      simpa [gGAME, List.append_assoc] using this
  | group n cs =>
    obtain ⟨hn, hcs⟩ := canonicalB_group n cs hc
    refine ⟨indent d ++ gGROUP ++ n,
      splitLines (saveChildren cs (d + 1) ++ s), ?_, ?_, ?_⟩
    · rw [show save (.group n cs) d ++ s =
        (indent d ++ gGROUP ++ n) ++ '\n' :: (saveChildren cs (d + 1) ++ s)
        from by simp [save]]
      exact splitLines_append _ (group_line_noNl d n hn) _
    · simp [gGROUP]
    · have := getDepth_indent d 'G' (by decide) ('R' :: 'O' :: 'U' :: 'P' :: ' ' :: n)
      simpa [gGROUP, List.append_assoc] using this

/-! ## The round trip: parsing a serialized subtree -/

mutual

/-- Parsing the serialization of a canonical node at depth `d` followed by a
continuation whose first line (if any) is nonblank of depth at most `d`
yields exactly that node and consumes exactly its lines. -/
theorem parse_save (c : Component) (d : Nat) (s : List Char)
    (hc : canonicalB c = true) (hs : firstStops d (splitLines s)) :
    parseRes (splitLines (save c d ++ s)) = (.ok (some c), splitLines s) := by
  cases c with
  | game n r =>
    obtain ⟨hname, hden⟩ := canonicalB_game n r hc
    obtain ⟨htne, heq⟩ := goodGameName_spec n hname
    rw [show save (.game n r) d ++ s =
      (indent d ++ gGAME ++ n ++ ' ' :: dtos r) ++ '\n' :: s from by simp [save]]
    rw [splitLines_append _ (game_line_noNl d n r hname) s]
    have htrim : trimSpaces (indent d ++ gGAME ++ n ++ ' ' :: dtos r) =
        gGAME ++ (n ++ ' ' :: dtos r) := by
      have := trimSpaces_indent d 'G' (by decide)
        ('A' :: 'M' :: 'E' :: ' ' :: (n ++ ' ' :: dtos r))
      simpa [gGAME, List.append_assoc] using this
    have htake5 : (trimSpaces (indent d ++ gGAME ++ n ++ ' ' :: dtos r)).take 5 =
        gGAME := by
      rw [htrim]; simp [gGAME]
    have hdrop5 : (trimSpaces (indent d ++ gGAME ++ n ++ ' ' :: dtos r)).drop 5 =
        n ++ ' ' :: dtos r := by
      rw [htrim]; simp [gGAME]
    rw [parseRes_game _ _ (by simp [gGAME]) htake5, hdrop5]
    have htok : tokens (n ++ ' ' :: dtos r) = tokens n ++ [dtos r] := by
      have h := tokens_name_rev (tokens n) (tokens_good n) (dtos r)
        (dtos_ne_nil r) (dtos_chars r)
      rw [← heq] at h
      exact h
    rw [htok]
    have hlen : 2 ≤ (tokens n ++ [dtos r]).length := by
      have h1 : 1 ≤ (tokens n).length := List.length_pos.mpr htne
      simp only [List.length_append, List.length_singleton]
      omega
    rw [gameStep, if_pos hlen, List.getLastD_concat, stod?_dtos r hden,
      List.dropLast_concat, ← heq]
  | group n cs =>
    obtain ⟨hn, hcs⟩ := canonicalB_group n cs hc
    rw [show save (.group n cs) d ++ s =
      (indent d ++ gGROUP ++ n) ++ '\n' :: (saveChildren cs (d + 1) ++ s)
      from by simp [save]]
    rw [splitLines_append _ (group_line_noNl d n hn) _]
    have htrim : trimSpaces (indent d ++ gGROUP ++ n) = gGROUP ++ n := by
      have := trimSpaces_indent d 'G' (by decide) ('R' :: 'O' :: 'U' :: 'P' :: ' ' :: n)
      simpa [gGROUP, List.append_assoc] using this
    have htake6 : (trimSpaces (indent d ++ gGROUP ++ n)).take 6 = gGROUP := by
      rw [htrim]; simp [gGROUP]
    have hdrop6 : (trimSpaces (indent d ++ gGROUP ++ n)).drop 6 = n := by
      rw [htrim]; simp [gGROUP]
    have hdepth : getDepth (indent d ++ gGROUP ++ n) = d := by
      have := getDepth_indent d 'G' (by decide) ('R' :: 'O' :: 'U' :: 'P' :: ' ' :: n)
      simpa [gGROUP, List.append_assoc] using this
    rw [parseRes_group _ _ (by simp [gGROUP]) htake6, hdrop6, hdepth,
      parse_saveChildren cs d [] s hcs hs]
    simp [Except.map]
termination_by sizeOf c

/-- Scanning the serialized children (at depth `d + 1`) of a group whose own
line sits at depth `d` appends exactly those children and stops at the
continuation. -/
theorem parse_saveChildren (cs : List Component) (d : Nat) (acc : List Component)
    (s : List Char) (hcs : canonicalListB cs = true)
    (hs : firstStops d (splitLines s)) :
    childrenRes d acc (splitLines (saveChildren cs (d + 1) ++ s)) =
      (.ok (acc ++ cs), splitLines s) := by
  cases cs with
  | nil =>
    rw [show saveChildren [] (d + 1) ++ s = s from by simp [saveChildren]]
    cases hsplit : splitLines s with
    | nil => rw [childrenRes_nil]; simp
    | cons l ls' =>
      rw [hsplit] at hs
      rw [childrenRes_stop d acc l ls' hs.1 hs.2]
      simp
  | cons c cs' =>
    obtain ⟨hc, hcs'⟩ := canonicalListB_cons c cs' hcs
    rw [show saveChildren (c :: cs') (d + 1) ++ s =
      save c (d + 1) ++ (saveChildren cs' (d + 1) ++ s) from by simp [saveChildren]]
    obtain ⟨l, ls', hsplit, hlne, hld⟩ :=
      save_head c (d + 1) (saveChildren cs' (d + 1) ++ s) hc
    have hstops : firstStops (d + 1) (splitLines (saveChildren cs' (d + 1) ++ s)) := by
      cases cs' with
      | nil =>
        rw [show saveChildren [] (d + 1) ++ s = s from by simp [saveChildren]]
        exact firstStops_mono (Nat.le_succ d) _ hs
      | cons c2 cs2 =>
        obtain ⟨hc2, _⟩ := canonicalListB_cons c2 cs2 hcs'
        rw [show saveChildren (c2 :: cs2) (d + 1) ++ s =
          save c2 (d + 1) ++ (saveChildren cs2 (d + 1) ++ s)
          from by simp [saveChildren]]
        obtain ⟨l2, ls2, hsp2, hl2ne, hl2d⟩ :=
          save_head c2 (d + 1) (saveChildren cs2 (d + 1) ++ s) hc2
        rw [hsp2]
        exact ⟨hl2ne, Nat.le_of_eq hl2d⟩
    have hchild := parse_save c (d + 1) (saveChildren cs' (d + 1) ++ s) hc hstops
    rw [hsplit] at hchild
    rw [hsplit, childrenRes_child d acc l ls' (some c) _ hlne hld hchild]
    simp only [Option.toList_some]
    rw [parse_saveChildren cs' d (acc ++ [c]) s hcs' hs]
    simp
termination_by sizeOf cs

end

/-! ## Claim C1 (round trip) and claim C10 (first record only) -/

/-- C1 counterexample: a tree whose names contain no reserved prefix but whose
game name has a double space does not survive the round trip — the parser
tokenizes and rejoins the name with single spaces, so "a  b" comes back as
"a b". -/
theorem c1_counterexample :
    noReservedB (.group (("C").data) [.game (("a  b").data) 1]) = true ∧
    loadFromFile (some (save (.group (("C").data) [.game (("a  b").data) 1]) 0)) ≠
      .ok (some (.group (("C").data) [.game (("a  b").data) 1])) := by
  constructor
  · simp only [noReservedB, noReservedListB]
    decide
  · have hsave : save (.group (("C").data) [.game (("a  b").data) 1]) 0 =
        ("GROUP C\n  GAME a  b 1\n").data := by
      simp only [save, saveChildren, indent, gGROUP, gGAME]
      decide
    have hsplit : splitLines (("GROUP C\n  GAME a  b 1\n").data) =
        [("GROUP C").data, ("  GAME a  b 1").data] := by decide
    have hchild : parseRes [("  GAME a  b 1").data] =
        (.ok (some (.game (("a b").data) 1)), []) := by
      have hg := parseRes_game (("  GAME a  b 1").data) [] (by decide) (by decide)
      rw [hg, show tokens ((trimSpaces (("  GAME a  b 1").data)).drop 5) =
        [("a").data, ("b").data, ("1").data] from by decide]
      simp [gameStep, stod?, takeDigits, charDigit, parseDigitsB, joinSp]
    have hcr : childrenRes 0 [] [("  GAME a  b 1").data] =
        (.ok [.game (("a b").data) 1], []) := by
      rw [childrenRes_child 0 [] (("  GAME a  b 1").data) []
        (some (.game (("a b").data) 1)) [] (by decide) (by decide) hchild,
        childrenRes_nil]
      simp
    have hres : loadFromFile (some (save (.group (("C").data)
        [.game (("a  b").data) 1]) 0)) =
        .ok (some (.group (("C").data) [.game (("a b").data) 1])) := by
      rw [hsave]
      simp only [loadFromFile]
      rw [hsplit, parseRes_group (("GROUP C").data) [("  GAME a  b 1").data]
        (by decide) (by decide)]
      rw [show getDepth (("GROUP C").data) = 0 from by decide, hcr]
      simp [Except.map]
      decide
    rw [hres]
    intro h
    simp only [Except.ok.injEq, Option.some.injEq, Component.group.injEq,
      List.cons.injEq, Component.game.injEq] at h
    exact absurd h.2.1.1.2.2.1 (by decide)

/-- C1 (amended): for every tree whose names contain no reserved prefix *and*
are canonical — group names newline-free, game names nonempty with
single-space-separated whitespace-free words (no leading/trailing/double
spaces, tabs or newlines), revenues with finite decimal expansions (as all
float64 values are) — parsing the serialization at depth 0 from cursor 0
yields a tree equal to the original: same shape, same names, same
revenues. -/
theorem c1_roundtrip_amended (T : Component) (_hres : noReservedB T = true)
    (hcan : canonicalB T = true) :
    loadFromFile (some (save T 0)) = .ok (some T) := by
  have h := parse_save T 0 [] hcan (by rw [show splitLines [] = [] from rfl]; trivial)
  rw [List.append_nil] at h
  simp only [loadFromFile]
  rw [h]

/-- C1 witness: the sample catalog round-trips. -/
theorem c1_roundtrip_amended_witness :
    loadFromFile (some (save (.group (("Casino Games").data)
      [.group (("Table Games").data) [.game (("Blackjack").data) 0]]) 0)) =
      .ok (some (.group (("Casino Games").data)
        [.group (("Table Games").data) [.game (("Blackjack").data) 0]])) := by
  refine c1_roundtrip_amended _ ?_ ?_
  · simp only [noReservedB, noReservedListB]
    decide
  · simp only [canonicalB, canonicalListB]
    decide

/-- C10: when the input contains a second depth-0 record, the load returns
the tree built from the first record only — every line from the second
depth-0 record on is ignored — and no error is indicated. -/
theorem c10_first_record (T : Component) (s : List Char) (l : Line)
    (rest : List Line) (hcan : canonicalB T = true)
    (hsplit : splitLines s = l :: rest) (hl : l ≠ []) (hd : getDepth l = 0) :
    loadFromFile (some (save T 0 ++ s)) = .ok (some T) ∧
    loadFromFile (some (save T 0 ++ s)) = loadFromFile (some (save T 0)) := by
  have hstops : firstStops 0 (splitLines s) := by
    rw [hsplit]; exact ⟨hl, Nat.le_of_eq hd⟩
  have h1 := parse_save T 0 s hcan hstops
  have h2 := parse_save T 0 [] hcan (by rw [show splitLines [] = [] from rfl]; trivial)
  rw [List.append_nil] at h2
  constructor
  · simp only [loadFromFile]; rw [h1]
  · simp only [loadFromFile]; rw [h1, h2]

/-- C10 witness: a second depth-0 "GROUP B" record after the serialized
"GROUP A" tree is ignored, with no error. -/
theorem c10_first_record_witness :
    loadFromFile (some (save (.group (("A").data) []) 0 ++ ("GROUP B\n").data)) =
      .ok (some (.group (("A").data) [])) := by
  refine (c10_first_record (.group (("A").data) []) (("GROUP B\n").data)
    (("GROUP B").data) [] ?_ ?_ ?_ ?_).1
  · simp only [canonicalB, canonicalListB]
    decide
  · decide
  · decide
  · decide

/-! ## Claim C7: blank-line insertion invariance -/

mutual

/-- Inserting blank lines anywhere leaves the parsed node unchanged, and the
unconsumed suffixes stay related by the same insertion relation. -/
theorem parse_insBlank_aux (xs ys : List Line) (h : insBlank xs ys) :
    (parseRes xs).1 = (parseRes ys).1 ∧
      insBlank (parseRes xs).2 (parseRes ys).2 := by
  cases h with
  | nil => rw [parseRes_nil]; exact ⟨rfl, insBlank.nil⟩
  | blank h' =>
    rename_i ys₀
    rw [parseRes_blank]
    exact parse_insBlank_aux xs ys₀ h'
  | cons l h' =>
    rename_i xs₀ ys₀
    by_cases hl : l = []
    · subst hl
      rw [parseRes_blank, parseRes_blank]
      exact parse_insBlank_aux xs₀ ys₀ h'
    · by_cases hg : (trimSpaces l).take 6 = gGROUP
      · rw [parseRes_group l xs₀ hl hg, parseRes_group l ys₀ hl hg]
        have hch := children_insBlank_aux (getDepth l) [] xs₀ ys₀ h'
        exact ⟨by rw [hch.1], hch.2⟩
      · by_cases hgm : (trimSpaces l).take 5 = gGAME
        · rw [parseRes_game l xs₀ hl hgm, parseRes_game l ys₀ hl hgm]
          exact ⟨rfl, h'⟩
        · rw [parseRes_other l xs₀ hl hg hgm, parseRes_other l ys₀ hl hg hgm]
          exact ⟨rfl, h'⟩
termination_by 2 * ys.length

/-- The child-scanning loop under blank-line insertion. -/
theorem children_insBlank_aux (d : Nat) (acc : List Component)
    (xs ys : List Line) (h : insBlank xs ys) :
    (childrenRes d acc xs).1 = (childrenRes d acc ys).1 ∧
      insBlank (childrenRes d acc xs).2 (childrenRes d acc ys).2 := by
  cases h with
  | nil => rw [childrenRes_nil]; exact ⟨rfl, insBlank.nil⟩
  | blank h' =>
    rename_i ys₀
    rw [childrenRes_blank]
    exact children_insBlank_aux d acc xs ys₀ h'
  | cons l h' =>
    rename_i xs₀ ys₀
    by_cases hl : l = []
    · subst hl
      rw [childrenRes_blank, childrenRes_blank]
      exact children_insBlank_aux d acc xs₀ ys₀ h'
    · by_cases hle : getDepth l ≤ d
      · rw [childrenRes_stop d acc l xs₀ hl hle, childrenRes_stop d acc l ys₀ hl hle]
        exact ⟨rfl, insBlank.cons l h'⟩
      · by_cases heq : getDepth l = d + 1
        · have hp := parse_insBlank_aux (l :: xs₀) (l :: ys₀) (insBlank.cons l h')
          rcases hx : parseRes (l :: xs₀) with ⟨ex, rx⟩
          rcases hy : parseRes (l :: ys₀) with ⟨ey, ry⟩
          rw [hx, hy] at hp
          simp only at hp
          obtain ⟨hee, hrr⟩ := hp
          subst hee
          have hlen : ry.length < (l :: ys₀).length := by
            have hpp := parseRes_progress (l :: ys₀) (by simp)
            rw [hy] at hpp
            simpa using hpp
          cases ex with
          | error e =>
            rw [childrenRes_child_error d acc l xs₀ e rx hl heq hx,
              childrenRes_child_error d acc l ys₀ e ry hl heq hy]
            exact ⟨rfl, hrr⟩
          | ok oc =>
            rw [childrenRes_child d acc l xs₀ oc rx hl heq hx,
              childrenRes_child d acc l ys₀ oc ry hl heq hy]
            exact children_insBlank_aux d (acc ++ oc.toList) rx ry hrr
        · have hgt : d + 1 < getDepth l := by omega
          rw [childrenRes_orphan d acc l xs₀ hl hgt,
            childrenRes_orphan d acc l ys₀ hl hgt]
          exact children_insBlank_aux d acc xs₀ ys₀ h'
termination_by 2 * ys.length + 1

end

/-- C7: inserting blank lines anywhere in the input does not change the
parsed result — blank lines consume no tree slot and do not affect depth
tracking; the cursor simply advances past them. -/
theorem c7_blank_insertion (xs ys : List Line) (h : insBlank xs ys) :
    (parseRes xs).1 = (parseRes ys).1 :=
  (parse_insBlank_aux xs ys h).1

/-- C7 witness: a valid serialized tree with blank lines inserted between its
records parses to the same result. -/
theorem c7_blank_insertion_witness :
    (parseRes [("GROUP A").data, ("  GAME x 1").data]).1 =
      (parseRes [("GROUP A").data, [], ("  GAME x 1").data, []]).1 :=
  c7_blank_insertion _ _
    (insBlank.cons _ (insBlank.blank (insBlank.cons _ (insBlank.blank insBlank.nil))))

end Casino
